import Mathlib

/-!
Shallow embedding of the minimal actor/task runtime with a parallel-iterator
abstraction and a traffic-splitting router that the tutorial notebooks
exercise.  The notebooks under scrutiny only *call* this runtime (its
implementation is not part of the repository's source tree), so every
definition of the runtime itself is modelled from the specification's words,
as flagged in each doc comment.  The one piece of handler code that does
appear verbatim in the source (the stateful `Counter` backend) is translated
directly from it.
-/

namespace Academy

/-! ## Parallel iterator: shard sources and per-shard transformations -/

/-- Modelled from the spec: `batch(n)` groups consecutive items of a shard's
source into fixed-size lists, emitting a final partial batch when the source
is exhausted (never silently dropped).  The accumulator `acc` holds the batch
under construction, exactly as the streaming implementation accumulates items
until the batch reaches size `n`. -/
def batchAux (n : Nat) : List α → List α → List (List α)
  | [], acc => if acc.isEmpty then [] else [acc]
  | a :: l, acc =>
    let acc2 := acc ++ [a]
    if n ≤ acc2.length then acc2 :: batchAux n l [] else batchAux n l acc2

/-- Modelled from the spec: the `batch(n)` operator applied to a whole shard
source, starting from an empty accumulator. -/
def batchList (n : Nat) (l : List α) : List (List α) :=
  batchAux n l []

/-- Total number of items across all tagged shards. -/
def sumLen (ts : List (Nat × List α)) : Nat :=
  (ts.map (fun p => p.2.length)).sum

/-- Modelled from the spec: synchronous gather is a deterministic round-robin
pull across shards — one item from shard 0, then shard 1, … wrapping; a shard
that becomes exhausted is skipped on subsequent rounds; it terminates when all
shards are exhausted.  Each shard carries its index so the origin of every
produced item is recorded.  `fuel` bounds the number of rounds; it is
instantiated with the total item count, which always suffices. -/
def gatherRounds (fuel : Nat) (ts : List (Nat × List α)) : List (Nat × α) :=
  match fuel with
  | 0 => []
  | fuel + 1 =>
    let ne := ts.filter (fun p => !p.2.isEmpty)
    if ne.isEmpty then []
    else
      ne.filterMap (fun p => p.2.head?.map (fun a => (p.1, a)))
        ++ gatherRounds fuel (ne.map (fun p => (p.1, p.2.tail)))

/-- Tags the shards with their indices, starting at `k`. -/
def tagShards (k : Nat) : List (List α) → List (Nat × List α)
  | [] => []
  | s :: rest => (k, s) :: tagShards (k + 1) rest

/-- Selects, in order, the payloads tagged `j`. -/
def tagSel (j : Nat) (l : List (Nat × β)) : List β :=
  l.filterMap (fun p => if p.1 = j then some p.2 else none)

/-- Modelled from the spec: `gather_sync` converts the sharded iterator into a
single sequence by round-robin pulling, dropping the shard tags. -/
def gather_sync (shards : List (List α)) : List α :=
  (gatherRounds (sumLen (tagShards 0 shards)) (tagShards 0 shards)).map Prod.snd

/-- The subsequence of the synchronous gather's output consisting of the items
drawn from shard `j`, in output order. -/
def shardTrace (shards : List (List α)) (j : Nat) : List α :=
  tagSel j (gatherRounds (sumLen (tagShards 0 shards)) (tagShards 0 shards))

/-- Modelled from the spec: `from_range(R, N)` partitions the numeric range
`[0, R)` into `N` contiguous sub-ranges, one per shard; every shard but the
last receives `R / N` items and the last absorbs the remainder.  `q` is the
common shard size, `start`/`stop` delimit the part of the range still to be
distributed over the remaining shards. -/
def fromRangeAux (q : Nat) : Nat → Nat → Nat → List (List Nat)
  | 0, _, _ => []
  | 1, start, stop => [List.range' start (stop - start)]
  | n + 2, start, stop => List.range' start q :: fromRangeAux q (n + 1) (start + q) stop

/-- Modelled from the spec: `from_range(R, N)` builds the shard sources of a
`ShardedIterator` over `range(R)` with `N` shards. -/
def from_range (R N : Nat) : List (List Nat) :=
  fromRangeAux (R / N) N 0 R

/-- Modelled from the spec: `from_items(items, N)` splits a fixed collection
round-robin into `N` shards: shard `i` receives the items whose index is
congruent to `i` modulo `N`. -/
def from_items (items : List α) (numShards : Nat) : List (List α) :=
  (List.range numShards).map
    (fun i => items.enum.filterMap (fun p => if p.1 % numShards = i then some p.2 else none))

/-- Modelled from the spec: `for_each`/`map(fn)` applies `fn` to each item of
every shard, lazily per shard. -/
def forEachShards (f : α → β) (shards : List (List α)) : List (List β) :=
  shards.map (List.map f)

/-- Modelled from the spec: `filter(pred)` drops, in every shard, the items on
which the predicate is false. -/
def filterShards (p : α → Bool) (shards : List (List α)) : List (List α) :=
  shards.map (List.filter p)

/-- Modelled from the spec: `batch(n)` applied shard-wise to the iterator. -/
def batchShards (n : Nat) (shards : List (List α)) : List (List (List α)) :=
  shards.map (batchList n)

/-- Modelled from the spec: `take(n)` on a gathered (local) iterator
materializes the first `n` items, or all of them if fewer are available. -/
def localTake (n : Nat) (l : List α) : List α :=
  l.take n

/-! ## Stateful `Counter` backend handler, translated from the source -/

/-- The `Counter` class of the serving notebook: `self.count` starts at
`initial_count` and is incremented on every invocation. -/
structure Counter where
  count : Int

/-- The value returned by `Counter.__call__`: a record with the updated
counter and the request's arguments. -/
structure CounterResponse (Req : Type) where
  current_counter : Int
  args : Req

/-- Translation of `Counter.__call__`: increments `self.count`, then returns
the dictionary with the new count and the request arguments. -/
def Counter.call (c : Counter) (req : Req) : Counter × CounterResponse Req :=
  let c2 : Counter := ⟨c.count + 1⟩
  (c2, ⟨c2.count, req⟩)

/-- Running the `Counter` handler over a sequence of requests, threading the
state and collecting the responses in invocation order. -/
def Counter.runAll (c : Counter) : List Req → Counter × List (CounterResponse Req)
  | [] => (c, [])
  | r :: rs =>
    let step := c.call r
    let rest := step.1.runAll rs
    (rest.1, step.2 :: rest.2)

/-! ## ActorRegistry -/

/-- Liveness state of an actor entry. -/
inductive Liveness
  | alive
  | restarting
  | dead
deriving DecidableEq

/-- Lifetime of an actor: scoped (reference-counted) or detached (persistent). -/
inductive Lifetime
  | scoped
  | detached
deriving DecidableEq

/-- Structural errors of the actor registry. -/
inductive RegistryError
  | NotFound
  | NameConflict
deriving DecidableEq

/-- One registry entry: lifetime, liveness state and remaining restart budget
(-1 meaning unlimited). -/
structure ActorEntry where
  lifetime : Lifetime
  liveness : Liveness
  restartBudget : Int
deriving DecidableEq

/-- Modelled from the spec: the process-wide naming service mapping logical
names to actor entries. -/
structure Registry where
  entries : List (String × ActorEntry)
deriving DecidableEq

/-- First entry registered under `name`, if any. -/
def Registry.find (r : Registry) (name : String) : Option ActorEntry :=
  (r.entries.find? (fun p => p.1 = name)).map Prod.snd

/-- Modelled from the spec: `register` creates an entry under `name`; it fails
with `NameConflict` while the name is still present in the table — after a
kill the name stays reserved (the observed behavior: a killed actor's name
cannot be immediately reused) until it is explicitly released. -/
def Registry.register (r : Registry) (name : String) (lt : Lifetime) (budget : Int) :
    Except RegistryError Registry :=
  match r.find name with
  | some _ => .error .NameConflict
  | none => .ok ⟨(name, ⟨lt, .alive, budget⟩) :: r.entries⟩

/-- Modelled from the spec: `lookup` fails with `NotFound` if the name is
absent or the actor is dead. -/
def Registry.lookup (r : Registry) (name : String) : Except RegistryError ActorEntry :=
  match r.find name with
  | none => .error .NotFound
  | some e => if e.liveness = .dead then .error .NotFound else .ok e

/-- Replaces the entry stored under `name` (all occurrences, keys kept). -/
def Registry.setEntry (r : Registry) (name : String) (e : ActorEntry) : Registry :=
  ⟨r.entries.map (fun p => if p.1 = name then (p.1, e) else p)⟩

/-- Modelled from the spec: `kill` transitions the actor to `dead`; when
`allowRestart` is set and the restart budget is nonzero it instead schedules a
restart (the initializer re-runs, the budget is decremented unless unlimited);
otherwise the name remains reserved until explicitly released. -/
def Registry.kill (r : Registry) (name : String) (allowRestart : Bool) :
    Except RegistryError Registry :=
  match r.find name with
  | none => .error .NotFound
  | some e =>
    if allowRestart = true ∧ e.restartBudget ≠ 0 then
      .ok (r.setEntry name
        ⟨e.lifetime, .alive, if e.restartBudget > 0 then e.restartBudget - 1 else e.restartBudget⟩)
    else
      .ok (r.setEntry name ⟨e.lifetime, .dead, e.restartBudget⟩)

/-- Modelled from the spec: explicit release of a reserved name, removing its
entry from the table so the name can be registered again. -/
def Registry.release (r : Registry) (name : String) : Registry :=
  ⟨r.entries.filter (fun p => p.1 ≠ name)⟩

/-! ## TaskExecutor -/

/-- Outcome of one execution attempt of a task: a returned value, a user-level
error raised by the handler, or a worker/actor crash (system error). -/
inductive Attempt
  | ok (v : Nat)
  | userError (e : Nat)
  | crash
deriving DecidableEq

/-- What the result handle of a task delivers. -/
inductive TaskResult
  | value (v : Nat)
  | applicationError (e : Nat)
  | actorUnavailable
deriving DecidableEq

/-- Modelled from the spec: the task executor's retry loop.  `budget` is
`max_task_retries` (-1 meaning unlimited); `attempts` is the schedule of
outcomes the successive executions produce.  A returned value is delivered; a
user-level error is delivered as `applicationError` with no retry; a crash
consumes one retry and re-executes while budget remains, else delivers
`actorUnavailable`.  Returns the delivered result (`none` when the finite
schedule ran out while the executor would still retry) and the number of
executions performed. -/
def runTask (budget : Int) : List Attempt → Option TaskResult × Nat
  | [] => (none, 0)
  | a :: rest =>
    match a with
    | .ok v => (some (.value v), 1)
    | .userError e => (some (.applicationError e), 1)
    | .crash =>
      if budget = 0 then (some .actorUnavailable, 1)
      else
        let r := runTask (if budget > 0 then budget - 1 else budget) rest
        (r.1, r.2 + 1)

/-! ## Router -/

/-- An endpoint: a weight map over backend names and a shadow map of backend
names to sampling fractions. -/
structure Endpoint where
  traffic : List (String × ℚ)
  shadows : List (String × ℚ)
deriving DecidableEq

/-- Structural errors of the serving layer. -/
inductive ServeError
  | NotFound
  | NameConflict
  | InvalidWeights
  | BackendInUse
deriving DecidableEq

/-- Modelled from the spec: the router's registry — the set of registered
backend names and the endpoint table.  Handler payloads play no role in the
routing and referential-integrity contracts, so backends are carried by name;
handler execution is modelled by the `exec` argument of `route`. -/
structure ServeState where
  backends : List String
  endpoints : List (String × Endpoint)
deriving DecidableEq

/-- Whether the endpoint's traffic map or shadow map references backend `b`. -/
def referencesBackend (ep : Endpoint) (b : String) : Bool :=
  ep.traffic.any (fun p => p.1 == b) || ep.shadows.any (fun p => p.1 == b)

/-- First endpoint registered under `name`, if any. -/
def ServeState.findEndpoint (st : ServeState) (name : String) : Option Endpoint :=
  (st.endpoints.find? (fun p => p.1 = name)).map Prod.snd

/-- Modelled from the spec: a weight map is valid when its weights sum to 1
and every referenced backend exists in the backend registry. -/
def validWeights (st : ServeState) (m : List (String × ℚ)) : Bool :=
  ((m.map Prod.snd).sum == 1) && m.all (fun p => st.backends.contains p.1)

/-- Modelled from the spec: `delete_backend` fails with `BackendInUse` while
any endpoint's traffic or shadow map still references the backend (the
operation then produces no successor state, leaving the registry unchanged);
on a missing name it fails with `NotFound`; otherwise it removes the name. -/
def ServeState.delete_backend (st : ServeState) (b : String) : Except ServeError ServeState :=
  if st.endpoints.any (fun p => referencesBackend p.2 b) then .error .BackendInUse
  else if st.backends.contains b then
    .ok ⟨st.backends.filter (fun n => n ≠ b), st.endpoints⟩
  else .error .NotFound

/-- Modelled from the spec: `delete_endpoint` removes the endpoint's entry;
`NotFound` if absent. -/
def ServeState.delete_endpoint (st : ServeState) (e : String) : Except ServeError ServeState :=
  match st.findEndpoint e with
  | none => .error .NotFound
  | some _ => .ok ⟨st.backends, st.endpoints.filter (fun p => p.1 ≠ e)⟩

/-- Modelled from the spec: `set_traffic` validates the new weight map and
atomically replaces the endpoint's entire weight map, leaving its shadow map
and every other endpoint untouched. -/
def ServeState.set_traffic (st : ServeState) (e : String) (m : List (String × ℚ)) :
    Except ServeError ServeState :=
  match st.findEndpoint e with
  | none => .error .NotFound
  | some _ =>
    if validWeights st m then
      .ok ⟨st.backends,
        st.endpoints.map (fun p => if p.1 = e then (p.1, ⟨m, p.2.shadows⟩) else p)⟩
    else .error .InvalidWeights

/-- Replaces endpoint `e`'s shadow map, touching nothing else; used to compare
router behavior across shadow configurations. -/
def ServeState.withShadows (st : ServeState) (e : String) (sh : List (String × ℚ)) :
    ServeState :=
  ⟨st.backends, st.endpoints.map (fun p => if p.1 = e then (p.1, ⟨p.2.traffic, sh⟩) else p)⟩

/-- Modelled from the spec: weighted random selection over the weight map.
`u` is the sampled point of `[0, 1)`; the walk subtracts weights until the
point falls inside a backend's band. -/
def selectBackend : List (String × ℚ) → ℚ → Option String
  | [], _ => none
  | (b, w) :: rest, u => if u < w then some b else selectBackend rest (u - w)

/-- Modelled from the spec: `route` samples a backend from the endpoint's
weight map and dispatches the request to it; independently, each shadow
backend whose sampling decision fires receives a duplicate dispatch whose
outcome is only logged.  `exec` gives the primary dispatch's outcome and
`shadowOutcome` the outcome of each shadow dispatch (every dispatch is an
independent task invocation, so its outcome is modelled separately);
`shadowSample` is the per-backend sampling decision at the configured
fraction.  The first component is what the caller receives; the second is the
fire-and-forget shadow log. -/
def route (st : ServeState) (exec : String → Req → Except ServeError Resp)
    (shadowOutcome : String → Req → Except ServeError Resp)
    (e : String) (req : Req) (u : ℚ) (shadowSample : String → ℚ → Bool) :
    Except ServeError Resp × List (String × Except ServeError Resp) :=
  match st.findEndpoint e with
  | none => (.error .NotFound, [])
  | some ep =>
    let primary :=
      match selectBackend ep.traffic u with
      | none => .error .NotFound
      | some b => exec b req
    let log := ep.shadows.filterMap
      (fun p => if shadowSample p.1 p.2 then some (p.1, shadowOutcome p.1 req) else none)
    (primary, log)

/-! ## Lemmas about `batch` -/

theorem batchAux_flatten (n : Nat) (l acc : List α) :
    (batchAux n l acc).flatten = acc ++ l := by
  induction l generalizing acc with
  | nil =>
    by_cases h : acc.isEmpty
    · simp [batchAux, h, List.isEmpty_iff.mp h]
    · simp [batchAux, h]
  | cons a l ih =>
    simp only [batchAux]
    split
    · simp [ih]
    · simp [ih]

theorem batchAux_length (n : Nat) (hn : 1 ≤ n) (l : List α) :
    ∀ acc : List α, acc.length < n →
      (batchAux n l acc).length = (acc.length + l.length + (n - 1)) / n := by
  induction l with
  | nil =>
    intro acc hacc
    by_cases h : acc.isEmpty
    · have : acc = [] := List.isEmpty_iff.mp h
      subst this
      simp [batchAux, Nat.div_eq_of_lt (by omega : n - 1 < n)]
    · have hne : acc ≠ [] := fun he => h (by simp [he])
      have h1 : 1 ≤ acc.length := by
        cases acc with
        | nil => exact absurd rfl hne
        | cons _ _ => simp
      simp only [batchAux]
      rw [if_neg h]
      simp only [List.length_cons, List.length_nil, Nat.zero_add, Nat.add_zero]
      symm
      apply Nat.div_eq_of_lt_le <;> omega
  | cons a l ih =>
    intro acc hacc
    simp only [batchAux]
    split
    · rename_i hfull
      simp only [List.length_append, List.length_cons, List.length_nil] at hfull
      have hrec : (batchAux n l []).length = (l.length + (n - 1)) / n := by
        have := ih [] (by simp only [List.length_nil]; omega)
        simpa using this
      simp only [List.length_cons, hrec]
      have harith : acc.length + (l.length + 1) + (n - 1) = (l.length + (n - 1)) + n := by
        omega
      rw [harith, Nat.add_div_right _ (by omega)]
    · rename_i hfull
      simp only [List.length_append, List.length_cons, List.length_nil] at hfull
      have hlt : (acc ++ [a]).length < n := by
        simp only [List.length_append, List.length_cons, List.length_nil]
        omega
      rw [ih (acc ++ [a]) hlt]
      congr 1
      simp only [List.length_append, List.length_cons, List.length_nil]
      omega

theorem batchAux_mem_ne_nil (n : Nat) (l : List α) :
    ∀ acc : List α, ∀ b ∈ batchAux n l acc, b ≠ [] := by
  induction l with
  | nil =>
    intro acc b hb
    by_cases h : acc.isEmpty
    · simp [batchAux, h] at hb
    · simp [batchAux, h] at hb
      subst hb
      exact fun he => h (by simp [he])
  | cons a l ih =>
    intro acc b hb
    simp only [batchAux] at hb
    split at hb
    · rcases List.mem_cons.mp hb with h | h
      · subst h; simp
      · exact ih [] b h
    · exact ih (acc ++ [a]) b hb

theorem batchAux_eq_nil_iff (n : Nat) (l acc : List α) :
    batchAux n l acc = [] ↔ l = [] ∧ acc = [] := by
  induction l generalizing acc with
  | nil =>
    by_cases h : acc.isEmpty
    · simp [batchAux, h, List.isEmpty_iff.mp h]
    · have hne : acc ≠ [] := fun he => h (by simp [he])
      simp [batchAux, h, hne]
  | cons a l ih =>
    simp only [batchAux]
    split
    · simp
    · rw [ih]
      simp

theorem batchAux_dropLast (n : Nat) (hn : 1 ≤ n) (l : List α) :
    ∀ acc : List α, acc.length < n →
      ∀ b ∈ (batchAux n l acc).dropLast, b.length = n := by
  induction l with
  | nil =>
    intro acc hacc b hb
    by_cases h : acc.isEmpty <;> simp [batchAux, h] at hb
  | cons a l ih =>
    intro acc hacc b hb
    simp only [batchAux] at hb
    split at hb
    · rename_i hfull
      simp only [List.length_append, List.length_cons, List.length_nil] at hfull
      have hlen : (acc ++ [a]).length = n := by
        simp only [List.length_append, List.length_cons, List.length_nil]
        omega
      cases hrec : batchAux n l [] with
      | nil => simp [hrec] at hb
      | cons c cs =>
        rw [hrec, List.dropLast_cons₂] at hb
        rcases List.mem_cons.mp hb with h | h
        · subst h; exact hlen
        · refine ih [] (by simp only [List.length_nil]; omega) b ?_
          rw [hrec]
          exact h
    · rename_i hfull
      simp only [List.length_append, List.length_cons, List.length_nil] at hfull
      have hlt : (acc ++ [a]).length < n := by
        simp only [List.length_append, List.length_cons, List.length_nil]
        omega
      exact ih (acc ++ [a]) hlt b hb

theorem batchAux_getLast (n : Nat) (hn : 1 ≤ n) (l : List α) :
    ∀ acc : List α, acc.length < n → l ≠ [] ∨ acc ≠ [] →
      ∃ b, (batchAux n l acc).getLast? = some b ∧
        b.length = if (acc.length + l.length) % n = 0 then n else (acc.length + l.length) % n := by
  induction l with
  | nil =>
    intro acc hacc hne
    have hacc' : acc ≠ [] := by
      rcases hne with h | h
      · exact absurd rfl h
      · exact h
    have h : acc.isEmpty = false := by
      cases acc with
      | nil => exact absurd rfl hacc'
      | cons _ _ => rfl
    refine ⟨acc, by simp [batchAux, h], ?_⟩
    have h1 : 1 ≤ acc.length := by
      cases acc with
      | nil => exact absurd rfl hacc'
      | cons _ _ => simp
    simp only [List.length_nil, Nat.add_zero, Nat.mod_eq_of_lt hacc]
    have : acc.length ≠ 0 := by omega
    simp [this]
  | cons a l ih =>
    intro acc hacc hne
    simp only [batchAux]
    split
    · rename_i hfull
      simp only [List.length_append, List.length_cons, List.length_nil] at hfull
      have h2 : acc.length + 1 = n := by omega
      cases l with
      | nil =>
        have hrec0 : batchAux n ([] : List α) ([] : List α) = [] := rfl
        refine ⟨acc ++ [a], by simp [hrec0], ?_⟩
        have hT : (acc.length + (a :: ([] : List α)).length) % n = 0 := by
          simp only [List.length_cons, List.length_nil]
          have he : acc.length + (0 + 1) = n := by omega
          rw [he, Nat.mod_self]
        have hln : (acc ++ [a]).length = n := by
          simp only [List.length_append, List.length_cons, List.length_nil]
          omega
        rw [hT, hln]
        simp
      | cons c l' =>
        obtain ⟨b, hb1, hb2⟩ := ih [] (by simp only [List.length_nil]; omega) (Or.inl (by simp))
        have hrecne : batchAux n (c :: l') ([] : List α) ≠ [] := by
          rw [ne_eq, batchAux_eq_nil_iff]
          simp
        refine ⟨b, ?_, ?_⟩
        · cases hrec : batchAux n (c :: l') ([] : List α) with
          | nil => exact absurd hrec hrecne
          | cons d ds =>
            rw [List.getLast?_cons_cons, ← hrec]
            exact hb1
        · have hmod : (acc.length + (a :: c :: l').length) % n = (c :: l').length % n := by
            have he : acc.length + (a :: c :: l').length = (c :: l').length + n := by
              simp only [List.length_cons]
              omega
            rw [he, Nat.add_mod_right]
          rw [hmod]
          simpa using hb2
    · rename_i hfull
      simp only [List.length_append, List.length_cons, List.length_nil] at hfull
      have hlt : (acc ++ [a]).length < n := by
        simp only [List.length_append, List.length_cons, List.length_nil]
        omega
      obtain ⟨b, hb1, hb2⟩ := ih (acc ++ [a]) hlt (Or.inr (by simp))
      refine ⟨b, hb1, ?_⟩
      rw [hb2]
      have he : (acc ++ [a]).length + l.length = acc.length + (a :: l).length := by
        simp only [List.length_append, List.length_cons, List.length_nil]
        omega
      rw [he]

/-! ## Lemmas about `gather_sync` -/

theorem sumLen_cons (q : Nat × List α) (ts : List (Nat × List α)) :
    sumLen (q :: ts) = q.2.length + sumLen ts := by
  simp [sumLen]

theorem sumLen_filter_le (p : Nat × List α → Bool) (ts : List (Nat × List α)) :
    sumLen (ts.filter p) ≤ sumLen ts := by
  induction ts with
  | nil => simp [sumLen]
  | cons q ts ih =>
    by_cases h : p q
    · rw [List.filter_cons, if_pos h, sumLen_cons, sumLen_cons]
      omega
    · rw [List.filter_cons, if_neg h, sumLen_cons]
      omega

theorem sumLen_tails (ne : List (Nat × List α)) (h : ∀ p ∈ ne, p.2 ≠ []) :
    sumLen (ne.map (fun p => (p.1, p.2.tail))) + ne.length = sumLen ne := by
  induction ne with
  | nil => simp [sumLen]
  | cons q ts ih =>
    have hq : q.2 ≠ [] := h q (by simp)
    have hlen : q.2.tail.length + 1 = q.2.length := by
      cases hq2 : q.2 with
      | nil => exact absurd hq2 hq
      | cons a t => simp
    have ihr := ih (fun p hp => h p (List.mem_cons_of_mem _ hp))
    simp only [List.map_cons, sumLen_cons, List.length_cons]
    omega

theorem sumLen_eq_zero (ts : List (Nat × List α)) (h : sumLen ts = 0) :
    ∀ p ∈ ts, p.2 = [] := by
  induction ts with
  | nil => simp
  | cons q ts ih =>
    rw [sumLen_cons] at h
    intro p hp
    rcases List.mem_cons.mp hp with he | hm
    · subst he
      exact List.length_eq_zero.mp (by omega)
    · exact ih (by omega) p hm

theorem flatMap_tag_eq_nil (ts : List (Nat × List α)) (h : ∀ p ∈ ts, p.2 = []) :
    ts.flatMap (fun p => p.2.map (fun a => (p.1, a))) = [] := by
  induction ts with
  | nil => rfl
  | cons q ts ih =>
    have hq : q.2 = [] := h q (by simp)
    rw [List.flatMap_cons, hq]
    simpa using ih (fun p hp => h p (List.mem_cons_of_mem _ hp))

theorem flatMap_tag_filter (ts : List (Nat × List α)) :
    (ts.filter (fun p => !p.2.isEmpty)).flatMap (fun p => p.2.map (fun a => (p.1, a)))
      = ts.flatMap (fun p => p.2.map (fun a => (p.1, a))) := by
  induction ts with
  | nil => rfl
  | cons q ts ih =>
    by_cases h : q.2 = []
    · simp [List.filter_cons, h, ih]
    · simp [List.filter_cons, h, ih]

theorem heads_tails_perm (ne : List (Nat × List α)) (h : ∀ p ∈ ne, p.2 ≠ []) :
    (ne.filterMap (fun p => p.2.head?.map (fun a => (p.1, a)))
        ++ (ne.map (fun p => (p.1, p.2.tail))).flatMap (fun p => p.2.map (fun a => (p.1, a)))).Perm
      (ne.flatMap (fun p => p.2.map (fun a => (p.1, a)))) := by
  induction ne with
  | nil => simp
  | cons q rest ih =>
    obtain ⟨j, l⟩ := q
    have hq : l ≠ [] := h (j, l) (by simp)
    cases l with
    | nil => exact absurd rfl hq
    | cons a t =>
      have ihr := ih (fun p hp => h p (List.mem_cons_of_mem _ hp))
      simp only [List.filterMap_cons, List.head?_cons, Option.map_some', List.map_cons,
        List.tail_cons, List.flatMap_cons, List.cons_append]
      refine List.Perm.cons _ ?_
      rw [← List.append_assoc]
      refine (List.perm_append_comm.append_right _).trans ?_
      rw [List.append_assoc]
      exact List.Perm.append_left _ ihr

theorem gatherRounds_perm (fuel : Nat) (ts : List (Nat × List α)) (h : sumLen ts ≤ fuel) :
    (gatherRounds fuel ts).Perm (ts.flatMap (fun p => p.2.map (fun a => (p.1, a)))) := by
  induction fuel generalizing ts with
  | zero =>
    have h0 : ∀ p ∈ ts, p.2 = [] := sumLen_eq_zero ts (Nat.le_zero.mp h)
    rw [flatMap_tag_eq_nil ts h0]
    exact List.Perm.refl _
  | succ fuel ih =>
    simp only [gatherRounds]
    by_cases hcase : (ts.filter (fun p => !p.2.isEmpty)).isEmpty
    · rw [if_pos hcase]
      have hall : ∀ p ∈ ts, p.2 = [] := by
        intro p hp
        by_contra hcon
        have hmem : p ∈ ts.filter (fun p => !p.2.isEmpty) :=
          List.mem_filter.mpr ⟨hp, by simp [hcon]⟩
        rw [List.isEmpty_eq_true] at hcase
        rw [hcase] at hmem
        exact absurd hmem (List.not_mem_nil p)
      rw [flatMap_tag_eq_nil ts hall]
    · rw [if_neg hcase]
      have hne' : ∀ p ∈ ts.filter (fun p => !p.2.isEmpty), p.2 ≠ [] := by
        intro p hp hc
        have hk := (List.mem_filter.mp hp).2
        rw [hc] at hk
        exact absurd hk (by simp)
      have hpos : 1 ≤ (ts.filter (fun p => !p.2.isEmpty)).length := by
        rcases hlist : ts.filter (fun p => !p.2.isEmpty) with _ | ⟨q, rest⟩
        · rw [hlist] at hcase
          exact absurd rfl hcase
        · rw [hlist]
          simp
      have hsum : sumLen ((ts.filter (fun p => !p.2.isEmpty)).map (fun p => (p.1, p.2.tail)))
          ≤ fuel := by
        have h1 := sumLen_tails _ hne'
        have h2 := sumLen_filter_le (fun p => !p.2.isEmpty) ts
        omega
      have ihg := ih _ hsum
      refine (List.Perm.append_left _ ihg).trans ?_
      refine (heads_tails_perm _ hne').trans ?_
      rw [flatMap_tag_filter]

theorem tagSel_append (j : Nat) (l₁ l₂ : List (Nat × β)) :
    tagSel j (l₁ ++ l₂) = tagSel j l₁ ++ tagSel j l₂ := by
  simp [tagSel, List.filterMap_append]

theorem tagSel_eq_nil_of (j : Nat) (l : List (Nat × β)) (h : ∀ p ∈ l, p.1 ≠ j) :
    tagSel j l = [] := by
  induction l with
  | nil => rfl
  | cons q rest ih =>
    have hq : q.1 ≠ j := h q (by simp)
    simp only [tagSel, List.filterMap_cons, if_neg hq]
    exact ih (fun p hp => h p (List.mem_cons_of_mem _ hp))

theorem mem_tagSel (j : Nat) (l : List (Nat × β)) (b : β) (hb : b ∈ tagSel j l) :
    ∃ p ∈ l, p.1 = j ∧ p.2 = b := by
  obtain ⟨p, hp, he⟩ := List.mem_filterMap.mp hb
  by_cases hj : p.1 = j
  · rw [if_pos hj] at he
    exact ⟨p, hp, hj, Option.some_injective _ he⟩
  · rw [if_neg hj] at he
    exact absurd he (Option.noConfusion)

theorem heads_fst_mem (ne : List (Nat × List α)) (q : Nat × α)
    (hq : q ∈ ne.filterMap (fun p => p.2.head?.map (fun a => (p.1, a)))) :
    q.1 ∈ ne.map Prod.fst := by
  obtain ⟨p, hp, he⟩ := List.mem_filterMap.mp hq
  cases hh : p.2.head? with
  | none => rw [hh] at he; exact absurd he (Option.noConfusion)
  | some a =>
    rw [hh] at he
    have : (p.1, a) = q := Option.some_injective _ he
    refine List.mem_map.mpr ⟨p, hp, ?_⟩
    rw [← this]

theorem tagSel_cons (j : Nat) (q : Nat × β) (l : List (Nat × β)) :
    tagSel j (q :: l) = if q.1 = j then q.2 :: tagSel j l else tagSel j l := by
  simp only [tagSel, List.filterMap_cons]
  by_cases h : q.1 = j
  · rw [if_pos h, if_pos h]
  · rw [if_neg h, if_neg h]

theorem tagSel_heads_tails (ne : List (Nat × List α)) (j : Nat)
    (hnd : (ne.map Prod.fst).Nodup) (h : ∀ p ∈ ne, p.2 ≠ []) :
    tagSel j (ne.filterMap (fun p => p.2.head?.map (fun a => (p.1, a))))
      ++ (tagSel j (ne.map (fun p => (p.1, p.2.tail)))).flatten
    = (tagSel j ne).flatten := by
  induction ne with
  | nil => rfl
  | cons q rest ih =>
    obtain ⟨i, l⟩ := q
    have hq : l ≠ [] := h (i, l) (by simp)
    cases l with
    | nil => exact absurd rfl hq
    | cons a t =>
      rw [List.map_cons, List.nodup_cons] at hnd
      have ihr := ih hnd.2 (fun p hp => h p (List.mem_cons_of_mem _ hp))
      have hheads : ∀ p ∈ rest.filterMap (fun p => p.2.head?.map (fun a => (p.1, a))),
          p.1 ≠ i := by
        intro p hp he
        exact hnd.1 (he ▸ heads_fst_mem rest p hp)
      have htails : ∀ p ∈ rest.map (fun p => (p.1, p.2.tail)), p.1 ≠ i := by
        intro p hp he
        obtain ⟨p', hp', he'⟩ := List.mem_map.mp hp
        refine hnd.1 ?_
        refine List.mem_map.mpr ⟨p', hp', ?_⟩
        show p'.1 = i
        have hfst : p'.1 = p.1 := by rw [← he']
        exact hfst.trans he
      have hrest : ∀ p ∈ rest, p.1 ≠ i := by
        intro p hp he
        exact hnd.1 (List.mem_map.mpr ⟨p, hp, he⟩)
      simp only [List.filterMap_cons, List.head?_cons, Option.map_some', List.map_cons,
        List.tail_cons, tagSel_cons]
      by_cases hij : i = j
      · subst hij
        rw [if_pos rfl, if_pos rfl, if_pos rfl]
        rw [tagSel_eq_nil_of i _ hheads, tagSel_eq_nil_of i _ htails,
          tagSel_eq_nil_of i _ hrest]
        simp
      · rw [if_neg hij, if_neg hij, if_neg hij]
        exact ihr

theorem tagSel_filter_flatten (j : Nat) (ts : List (Nat × List α)) :
    (tagSel j (ts.filter (fun p => !p.2.isEmpty))).flatten = (tagSel j ts).flatten := by
  induction ts with
  | nil => rfl
  | cons q rest ih =>
    by_cases hq : q.2 = []
    · have hcond : (!q.2.isEmpty) = false := by simp [hq]
      rw [List.filter_cons, hcond, if_neg Bool.false_ne_true, tagSel_cons]
      by_cases hj : q.1 = j
      · rw [if_pos hj, List.flatten_cons, hq, List.nil_append]
        exact ih
      · rw [if_neg hj]
        exact ih
    · have hcond : (!q.2.isEmpty) = true := by simp [hq]
      rw [List.filter_cons, hcond, if_pos rfl, tagSel_cons, tagSel_cons]
      by_cases hj : q.1 = j
      · rw [if_pos hj, if_pos hj, List.flatten_cons, List.flatten_cons, ih]
      · rw [if_neg hj, if_neg hj]
        exact ih

theorem gatherRounds_tagSel (fuel : Nat) (j : Nat) :
    ∀ ts : List (Nat × List α), sumLen ts ≤ fuel → ((ts.map Prod.fst).Nodup) →
      tagSel j (gatherRounds fuel ts) = (tagSel j ts).flatten := by
  induction fuel with
  | zero =>
    intro ts h _
    have h0 : ∀ p ∈ ts, p.2 = [] := sumLen_eq_zero ts (Nat.le_zero.mp h)
    have hall : ∀ l ∈ tagSel j ts, l = [] := by
      intro l hl
      obtain ⟨p, hp, _, hpl⟩ := mem_tagSel j ts l hl
      rw [← hpl]
      exact h0 p hp
    rw [List.flatten_eq_nil_iff.mpr hall]
    rfl
  | succ fuel ih =>
    intro ts h hnd
    simp only [gatherRounds]
    by_cases hcase : (ts.filter (fun p => !p.2.isEmpty)).isEmpty
    · rw [if_pos hcase]
      have hall0 : ∀ p ∈ ts, p.2 = [] := by
        intro p hp
        by_contra hcon
        have hmem : p ∈ ts.filter (fun p => !p.2.isEmpty) :=
          List.mem_filter.mpr ⟨hp, by simp [hcon]⟩
        rw [List.isEmpty_eq_true] at hcase
        rw [hcase] at hmem
        exact absurd hmem (List.not_mem_nil p)
      have hall : ∀ l ∈ tagSel j ts, l = [] := by
        intro l hl
        obtain ⟨p, hp, _, hpl⟩ := mem_tagSel j ts l hl
        rw [← hpl]
        exact hall0 p hp
      rw [List.flatten_eq_nil_iff.mpr hall]
      rfl
    · rw [if_neg hcase]
      have hne' : ∀ p ∈ ts.filter (fun p => !p.2.isEmpty), p.2 ≠ [] := by
        intro p hp hc
        have hk := (List.mem_filter.mp hp).2
        rw [hc] at hk
        exact absurd hk (by simp)
      have hpos : 1 ≤ (ts.filter (fun p => !p.2.isEmpty)).length := by
        rcases hlist : ts.filter (fun p => !p.2.isEmpty) with _ | ⟨q, rest⟩
        · rw [hlist] at hcase
          exact absurd rfl hcase
        · rw [hlist]
          simp
      have hsum : sumLen ((ts.filter (fun p => !p.2.isEmpty)).map (fun p => (p.1, p.2.tail)))
          ≤ fuel := by
        have h1 := sumLen_tails _ hne'
        have h2 := sumLen_filter_le (fun p => !p.2.isEmpty) ts
        omega
      have hndne : ((ts.filter (fun p => !p.2.isEmpty)).map Prod.fst).Nodup :=
        List.Nodup.sublist ((ts.filter_sublist).map Prod.fst) hnd
      have hndtails :
          (((ts.filter (fun p => !p.2.isEmpty)).map (fun p => (p.1, p.2.tail))).map
            Prod.fst).Nodup := by
        rw [List.map_map]
        exact hndne
      rw [tagSel_append, ih _ hsum hndtails, tagSel_heads_tails _ j hndne hne']
      exact tagSel_filter_flatten j ts

/-! ## Lemmas about `tagShards` -/

theorem tagShards_map_fst (k : Nat) (shards : List (List α)) :
    (tagShards k shards).map Prod.fst = List.range' k shards.length := by
  induction shards generalizing k with
  | nil => rfl
  | cons s rest ih =>
    simp only [tagShards, List.map_cons, List.length_cons, List.range'_succ]
    rw [ih]

theorem tagShards_fst_nodup (k : Nat) (shards : List (List α)) :
    ((tagShards k shards).map Prod.fst).Nodup := by
  rw [tagShards_map_fst]
  exact List.nodup_range' k shards.length

theorem tagShards_flatMap_snd (k : Nat) (shards : List (List α)) :
    ((tagShards k shards).flatMap (fun p => p.2.map (fun a => (p.1, a)))).map Prod.snd
      = shards.flatten := by
  induction shards generalizing k with
  | nil => rfl
  | cons s rest ih =>
    simp only [tagShards, List.flatMap_cons, List.map_append, List.map_map,
      List.flatten_cons]
    rw [ih]
    congr 1
    have : (Prod.snd ∘ fun a : α => ((k, a) : Nat × α)) = id := rfl
    rw [this, List.map_id]

theorem tagShards_fst_ge (k : Nat) (shards : List (List α)) :
    ∀ p ∈ tagShards k shards, k ≤ p.1 := by
  induction shards generalizing k with
  | nil =>
    intro p hp
    exact absurd hp (List.not_mem_nil p)
  | cons s rest ih =>
    intro p hp
    rcases List.mem_cons.mp hp with he | hm
    · rw [he]
    · have := ih (k + 1) p hm
      omega

theorem tagSel_tagShards (j k : Nat) (shards : List (List α)) :
    (tagSel j (tagShards k shards)).flatten
      = if k ≤ j then shards.getD (j - k) [] else [] := by
  induction shards generalizing k with
  | nil =>
    simp only [tagShards, tagSel, List.filterMap_nil, List.flatten_nil]
    cases Nat.decLe k j <;> simp [List.getD]
  | cons s rest ih =>
    simp only [tagShards]
    rw [tagSel_cons]
    by_cases hkj : k = j
    · rw [if_pos hkj]
      subst hkj
      rw [List.flatten_cons]
      have hnil : tagSel k (tagShards (k + 1) rest) = [] := by
        refine tagSel_eq_nil_of k _ (fun p hp he => ?_)
        have := tagShards_fst_ge (k + 1) rest p hp
        omega
      rw [hnil]
      simp
    · rw [if_neg hkj, ih (k + 1)]
      by_cases hk : k ≤ j
      · have hk1 : k + 1 ≤ j := by omega
        rw [if_pos hk1, if_pos hk]
        have hj : j - k = (j - (k + 1)) + 1 := by omega
        rw [hj, List.getD_cons_succ]
      · rw [if_neg (by omega), if_neg hk]

/-! ## The gather theorems at the iterator level -/

theorem gather_sync_perm_flatten (shards : List (List α)) :
    (gather_sync shards).Perm shards.flatten := by
  have h := gatherRounds_perm (sumLen (tagShards 0 shards)) (tagShards 0 shards) (le_refl _)
  have h2 := h.map Prod.snd
  rw [tagShards_flatMap_snd] at h2
  exact h2

theorem shardTrace_eq_getD (shards : List (List α)) (j : Nat) :
    shardTrace shards j = shards.getD j [] := by
  unfold shardTrace
  rw [gatherRounds_tagSel _ j _ (le_refl _) (tagShards_fst_nodup 0 shards)]
  rw [tagSel_tagShards]
  simp

/-! ## Lemmas about `from_range` -/

theorem fromRangeAux_flatten (q stop : Nat) :
    ∀ (n start : Nat), start + n * q ≤ stop →
      (fromRangeAux q (n + 1) start stop).flatten = List.range' start (stop - start) := by
  intro n
  induction n with
  | zero =>
    intro start _
    simp [fromRangeAux]
  | succ n ih =>
    intro start h
    have h' : start + q + n * q ≤ stop := by
      rw [Nat.succ_mul] at h
      omega
    simp only [fromRangeAux, List.flatten_cons]
    rw [ih (start + q) h']
    have happ : List.range' start q ++ List.range' (start + q) (stop - (start + q))
        = List.range' start ((stop - (start + q)) + q) := by
      simp
    rw [happ]
    congr 1
    omega

theorem from_range_flatten (R N : Nat) (hN : 1 ≤ N) :
    (from_range R N).flatten = List.range R := by
  obtain ⟨n, rfl⟩ : ∃ n, N = n + 1 := ⟨N - 1, by omega⟩
  have hcond : 0 + n * (R / (n + 1)) ≤ R := by
    have h1 : (n + 1) * (R / (n + 1)) ≤ R := by
      rw [Nat.mul_comm]
      exact Nat.div_mul_le_self R (n + 1)
    have h2 : n * (R / (n + 1)) ≤ (n + 1) * (R / (n + 1)) :=
      Nat.mul_le_mul_right _ (by omega)
    omega
  unfold from_range
  rw [fromRangeAux_flatten (R / (n + 1)) R n 0 hcond]
  simp [List.range_eq_range']

theorem fromRangeAux_sorted (q : Nat) :
    ∀ (n start stop : Nat), ∀ l ∈ fromRangeAux q n start stop,
      List.Pairwise (· < ·) l := by
  intro n
  induction n with
  | zero =>
    intro start stop l hl
    simp [fromRangeAux] at hl
  | succ n ih =>
    intro start stop l hl
    cases n with
    | zero =>
      simp only [fromRangeAux] at hl
      rw [List.mem_singleton] at hl
      rw [hl]
      exact List.pairwise_lt_range' start (stop - start)
    | succ m =>
      simp only [fromRangeAux] at hl
      rcases List.mem_cons.mp hl with he | hm
      · rw [he]
        exact List.pairwise_lt_range' start q
      · exact ih (start + q) stop l hm

theorem getD_sorted_prop {P : List Nat → Prop} (hP : P []) :
    ∀ (L : List (List Nat)) (j : Nat), (∀ l ∈ L, P l) → P (L.getD j []) := by
  intro L
  induction L with
  | nil =>
    intro j _
    exact hP
  | cons s rest ih =>
    intro j hall
    cases j with
    | zero =>
      rw [List.getD_cons_zero]
      exact hall s (by simp)
    | succ m =>
      rw [List.getD_cons_succ]
      exact ih m (fun l hl => hall l (List.mem_cons_of_mem _ hl))

/-- C1: for every number of shards `N ≥ 1` and every range size `R`, the
`ShardedIterator` built with `from_range(R, N)` and materialized with
`gather_sync` yields exactly the `R` items of the range, each exactly once
(the output is a permutation of `range R`), and within the items drawn from
any single shard the output order is strictly ascending: the trace of shard
`j` is that shard's sub-range itself, which is strictly sorted. -/
theorem from_range_gather_sync (R N : Nat) (hN : 1 ≤ N) :
    (gather_sync (from_range R N)).Perm (List.range R) ∧
    ∀ j : Nat, shardTrace (from_range R N) j = (from_range R N).getD j [] ∧
      List.Pairwise (· < ·) ((from_range R N).getD j []) := by
  refine ⟨?_, fun j => ⟨shardTrace_eq_getD _ j, ?_⟩⟩
  · have h := gather_sync_perm_flatten (from_range R N)
    rw [from_range_flatten R N hN] at h
    exact h
  · refine getD_sorted_prop List.Pairwise.nil (from_range R N) j ?_
    intro l hl
    exact fromRangeAux_sorted (R / N) N 0 R l hl

/-- Witness for C1 at `R = 7`, `N = 3`. -/
theorem from_range_gather_sync_witness :
    1 ≤ 3 ∧
      ((gather_sync (from_range 7 3)).Perm (List.range 7) ∧
        ∀ j : Nat, shardTrace (from_range 7 3) j = (from_range 7 3).getD j [] ∧
          List.Pairwise (· < ·) ((from_range 7 3).getD j [])) :=
  ⟨by decide, from_range_gather_sync 7 3 (by decide)⟩

/-- C2: for every batch size `n ≥ 1` and every shard source `l` of length `L`,
`batch(n)` emits exactly `⌈L / n⌉` batches; every batch except possibly the
last has size `n`; the last batch has size `L mod n` when `L` is not a
multiple of `n` and size `n` otherwise; no emitted batch is empty; and the
final partial batch is emitted rather than dropped (the batches flatten back
to the source). -/
theorem batch_spec {α : Type} (n : Nat) (l : List α) (hn : 1 ≤ n) :
    (batchList n l).length = (l.length + n - 1) / n ∧
    (∀ b ∈ (batchList n l).dropLast, b.length = n) ∧
    (∀ b ∈ batchList n l, b ≠ []) ∧
    (l ≠ [] → ∃ b, (batchList n l).getLast? = some b ∧
        b.length = if l.length % n = 0 then n else l.length % n) ∧
    (batchList n l).flatten = l := by
  refine ⟨?_, ?_, ?_, ?_, ?_⟩
  · have h := batchAux_length n hn l [] (by simp only [List.length_nil]; omega)
    rw [batchList, h]
    congr 1
    simp only [List.length_nil]
    omega
  · exact batchAux_dropLast n hn l [] (by simp only [List.length_nil]; omega)
  · exact batchAux_mem_ne_nil n l []
  · intro hne
    obtain ⟨b, h1, h2⟩ :=
      batchAux_getLast n hn l [] (by simp only [List.length_nil]; omega) (Or.inl hne)
    exact ⟨b, h1, by simpa using h2⟩
  · exact batchAux_flatten n l []

/-- Witness for C2 at `n = 5` on a source of length 12. -/
theorem batch_spec_witness :
    1 ≤ 5 ∧
      ((batchList 5 (List.range 12)).length = ((List.range 12).length + 5 - 1) / 5 ∧
        (∀ b ∈ (batchList 5 (List.range 12)).dropLast, b.length = 5) ∧
        (∀ b ∈ batchList 5 (List.range 12), b ≠ []) ∧
        (List.range 12 ≠ [] → ∃ b, (batchList 5 (List.range 12)).getLast? = some b ∧
            b.length = if (List.range 12).length % 5 = 0 then 5
              else (List.range 12).length % 5) ∧
        (batchList 5 (List.range 12)).flatten = List.range 12) :=
  ⟨by decide, batch_spec 5 (List.range 12) (by decide)⟩

/-- C8: `take(n)` on a gathered iterator returns `min n available` items; on
the concrete pipeline `from_items([1,2,3,4], shards := 2)` mapped with
squaring, `gather_sync().take(10)` returns exactly the four values 1, 4, 9,
16, each once, in shard-interleaved order, with result length 4. -/
theorem take_saturates :
    (∀ (n : Nat) (l : List Nat), (localTake n l).length = min n l.length) ∧
    (localTake 10 (gather_sync (forEachShards (fun x => x * x)
        (from_items [1, 2, 3, 4] 2)))).length = 4 ∧
    (localTake 10 (gather_sync (forEachShards (fun x => x * x)
        (from_items [1, 2, 3, 4] 2)))).Perm [1, 4, 9, 16] := by
  refine ⟨?_, by decide, by decide⟩
  intro n l
  simp [localTake]

/-- C9: transformation order is significant — on the concrete range source
`from_range(20, 2)`, `batch(5)` then `map(sum)` yields the per-batch sums
while `map(double)` then `batch(5)` yields batches of doubled values, the two
outputs differing; and `map` and `filter` commute exactly when the predicate
is composed with the mapped function. -/
theorem operator_order_sensitivity :
    gather_sync (forEachShards List.sum (batchShards 5 (from_range 20 2)))
      = [10, 60, 35, 85] ∧
    gather_sync (batchShards 5 (forEachShards (fun x => 2 * x) (from_range 20 2)))
      = [[0, 2, 4, 6, 8], [20, 22, 24, 26, 28], [10, 12, 14, 16, 18],
          [30, 32, 34, 36, 38]] ∧
    gather_sync (forEachShards List.sum (batchShards 5 (from_range 20 2)))
      ≠ (gather_sync (batchShards 5 (forEachShards (fun x => 2 * x)
          (from_range 20 2)))).flatten ∧
    ∀ (f : Nat → Nat) (p : Nat → Bool) (shards : List (List Nat)),
      gather_sync (filterShards p (forEachShards f shards))
        = gather_sync (forEachShards f (filterShards (fun x => p (f x)) shards)) := by
  refine ⟨by decide, by decide, by decide, ?_⟩
  intro f p shards
  unfold filterShards forEachShards
  congr 1
  rw [List.map_map, List.map_map]
  refine List.map_congr_left ?_
  intro s _
  exact List.filter_map f s

/-- C10: the stateful `Counter` backend is a strictly monotonic counter —
constructed with `initial_count`, its n-th invocation (whatever the request
argument) returns `current_counter = initial_count + n`, so the sequence of
returned counters over any request list is exactly
`initial_count + 1, initial_count + 2, …`. -/
theorem counter_increments {Req : Type} (init : Int) (reqs : List Req) :
    ((Counter.mk init).runAll reqs).2.map (fun r => r.current_counter)
      = (List.range reqs.length).map (fun (i : Nat) => init + ((i : Int) + 1)) := by
  suffices h : ∀ c : Counter, (c.runAll reqs).2.map (fun r => r.current_counter)
      = (List.range reqs.length).map (fun (i : Nat) => c.count + ((i : Int) + 1)) by
    exact h ⟨init⟩
  induction reqs with
  | nil =>
    intro c
    rfl
  | cons r rs ih =>
    intro c
    simp only [Counter.runAll, Counter.call, List.map_cons, List.length_cons]
    rw [ih ⟨c.count + 1⟩]
    rw [List.range_succ_eq_map, List.map_cons, List.map_map]
    refine List.cons_eq_cons.mpr ⟨by norm_num, ?_⟩
    refine List.map_congr_left ?_
    intro i _
    show c.count + 1 + ((i : Int) + 1) = c.count + (((i + 1 : Nat) : Int) + 1)
    push_cast
    ring

/-! ## Lemmas about the registry -/

theorem find_setEntry (r : Registry) (name : String) (e : ActorEntry) :
    (r.setEntry name e).find name = (r.find name).map (fun _ => e) := by
  unfold Registry.setEntry Registry.find
  induction r.entries with
  | nil => rfl
  | cons q rest ih =>
    by_cases hq : q.1 = name
    · rw [List.map_cons, if_pos hq]
      rw [List.find?_cons_of_pos _ (by simp [hq]), List.find?_cons_of_pos _ (by simp [hq])]
      rfl
    · rw [List.map_cons, if_neg hq]
      rw [List.find?_cons_of_neg _ (by simp [hq]), List.find?_cons_of_neg _ (by simp [hq])]
      exact ih

theorem find_release (r : Registry) (name : String) :
    (r.release name).find name = none := by
  unfold Registry.release Registry.find
  have h : (r.entries.filter (fun p => p.1 ≠ name)).find? (fun p => p.1 = name) = none := by
    rw [List.find?_eq_none]
    intro x hx
    have hne := (List.mem_filter.mp hx).2
    simp only [decide_not] at hne
    simp only [decide_eq_true_eq]
    intro he
    rw [he] at hne
    simp at hne
  rw [h]
  rfl

/-- C3: after `kill(handle, allow_restart := false)` on a named actor, every
subsequent `lookup` of that name fails with `NotFound`, yet the name remains
reserved — registering under the same name still fails with `NameConflict` —
until the name is explicitly released, after which registration succeeds. -/
theorem kill_reserves_name (r : Registry) (name : String) (r' : Registry)
    (h : r.kill name false = .ok r') :
    r'.lookup name = .error .NotFound ∧
    (∀ lt b, r'.register name lt b = .error .NameConflict) ∧
    (∀ lt b, ∃ r'', (r'.release name).register name lt b = .ok r'') := by
  cases hf : r.find name with
  | none =>
    unfold Registry.kill at h
    rw [hf] at h
    exact Except.noConfusion h
  | some e =>
    have hkill : r.kill name false
        = .ok (r.setEntry name ⟨e.lifetime, .dead, e.restartBudget⟩) := by
      unfold Registry.kill
      rw [hf]
      dsimp only
      rw [if_neg (show ¬(false = true ∧ e.restartBudget ≠ 0) by simp)]
    rw [hkill] at h
    have hr' : r.setEntry name ⟨e.lifetime, .dead, e.restartBudget⟩ = r' :=
      Except.ok.inj h
    have hfind' : r'.find name = some ⟨e.lifetime, .dead, e.restartBudget⟩ := by
      rw [← hr', find_setEntry, hf]
      rfl
    refine ⟨?_, ?_, ?_⟩
    · simp [Registry.lookup, hfind']
    · intro lt b
      simp [Registry.register, hfind']
    · intro lt b
      refine ⟨⟨(name, ⟨lt, .alive, b⟩) :: (r'.release name).entries⟩, ?_⟩
      simp [Registry.register, find_release]

/-- Witness for C3 on a one-entry registry. -/
theorem kill_reserves_name_witness :
    (Registry.kill ⟨[("a", ⟨.detached, .alive, 0⟩)]⟩ "a" false
        = .ok ⟨[("a", ⟨.detached, .dead, 0⟩)]⟩) ∧
      ((⟨[("a", ⟨.detached, .dead, 0⟩)]⟩ : Registry).lookup "a" = .error .NotFound ∧
        (∀ lt b, (⟨[("a", ⟨.detached, .dead, 0⟩)]⟩ : Registry).register "a" lt b
            = .error .NameConflict) ∧
        (∀ lt b, ∃ r'',
          ((⟨[("a", ⟨.detached, .dead, 0⟩)]⟩ : Registry).release "a").register "a" lt b
            = .ok r'')) :=
  ⟨rfl, kill_reserves_name ⟨[("a", ⟨.detached, .alive, 0⟩)]⟩ "a" _ rfl⟩

/-! ## The task executor theorem -/

theorem runTask_crash_cons (b : Int) (rest : List Attempt) (hb : b ≠ 0) :
    runTask b (.crash :: rest)
      = ((runTask (if b > 0 then b - 1 else b) rest).1,
          (runTask (if b > 0 then b - 1 else b) rest).2 + 1) := by
  simp only [runTask, if_neg hb]

/-- C4: a user-level error is delivered as `applicationError` after exactly
one execution and is never retried; a crash is retried up to
`max_task_retries` times — with budget `m`, `m + 1` consecutive crashes
exhaust the budget and deliver `actorUnavailable`, while success on or before
the `m`-th retry delivers the value; with budget `-1` the task is retried
indefinitely (a success after any number of crashes is delivered); the number
of executions never exceeds `m + 1`. -/
theorem task_retry_semantics :
    (∀ (b : Int) (e : Nat) (rest : List Attempt),
        runTask b (.userError e :: rest) = (some (.applicationError e), 1)) ∧
    (∀ (m : Nat) (rest : List Attempt),
        runTask (m : Int) (List.replicate (m + 1) .crash ++ rest)
          = (some .actorUnavailable, m + 1)) ∧
    (∀ (m k : Nat) (v : Nat) (rest : List Attempt), k ≤ m →
        (runTask (m : Int) (List.replicate k .crash ++ .ok v :: rest)).1
          = some (.value v)) ∧
    (∀ (k : Nat) (v : Nat) (rest : List Attempt),
        (runTask (-1) (List.replicate k .crash ++ .ok v :: rest)).1
          = some (.value v)) ∧
    (∀ (m : Nat) (l : List Attempt), (runTask (m : Int) l).2 ≤ m + 1) := by
  refine ⟨?_, ?_, ?_, ?_, ?_⟩
  · intro b e rest
    rfl
  · intro m
    induction m with
    | zero =>
      intro rest
      simp [runTask, List.replicate_succ]
    | succ m ih =>
      intro rest
      rw [List.replicate_succ, List.cons_append]
      have hne : ((m + 1 : Nat) : Int) ≠ 0 := by
        omega
      have hpos : (0 : Int) < ((m + 1 : Nat) : Int) := by
        omega
      have hsub : ((m + 1 : Nat) : Int) - 1 = ((m : Nat) : Int) := by
        push_cast
        ring
      rw [runTask_crash_cons _ _ hne, if_pos hpos, hsub, ih rest]
  · intro m k
    induction k generalizing m with
    | zero =>
      intro v rest _
      simp [runTask]
    | succ k ih =>
      intro v rest hk
      rw [List.replicate_succ, List.cons_append]
      have hm1 : 1 ≤ m := by omega
      have hne : ((m : Nat) : Int) ≠ 0 := by
        omega
      have hpos : (0 : Int) < ((m : Nat) : Int) := by
        omega
      have hsub : ((m : Nat) : Int) - 1 = ((m - 1 : Nat) : Int) := by
        push_cast [hm1]
        ring
      rw [runTask_crash_cons _ _ hne, if_pos hpos, hsub]
      simpa using ih (m - 1) v rest (by omega)
  · intro k
    induction k with
    | zero =>
      intro v rest
      simp [runTask]
    | succ k ih =>
      intro v rest
      rw [List.replicate_succ, List.cons_append]
      have hne : (-1 : Int) ≠ 0 := by decide
      have hng : ¬(-1 : Int) > 0 := by decide
      rw [runTask_crash_cons _ _ hne, if_neg hng]
      simpa using ih v rest
  · intro m l
    induction l generalizing m with
    | nil =>
      simp [runTask]
    | cons a rest ih =>
      cases a with
      | ok v => simp [runTask]
      | userError e => simp [runTask]
      | crash =>
        by_cases hm : m = 0
        · subst hm
          simp [runTask]
        · have hne : ((m : Nat) : Int) ≠ 0 := by
            omega
          have hpos : (0 : Int) < ((m : Nat) : Int) := by
            omega
          have hsub : ((m : Nat) : Int) - 1 = ((m - 1 : Nat) : Int) := by
            push_cast [show 1 ≤ m by omega]
            ring
          rw [runTask_crash_cons _ _ hne, if_pos hpos, hsub]
          have hh := ih (m - 1)
          show (runTask ((m - 1 : Nat) : Int) rest).2 + 1 ≤ m + 1
          omega

/-- Witness for C4: with budget 2, one crash followed by a success is
retried and delivers the value. -/
theorem task_retry_semantics_witness :
    1 ≤ 2 ∧
      (runTask (2 : Int) (List.replicate 1 .crash ++ .ok 7 :: [])).1
        = some (.value 7) :=
  ⟨by decide, task_retry_semantics.2.2.1 2 1 7 [] (by decide)⟩

/-! ## Lemmas about the router registry -/

theorem find?_set_traffic_eq (eps : List (String × Endpoint)) (e : String)
    (m : List (String × ℚ)) :
    ((eps.map (fun p => if p.1 = e then (p.1, (⟨m, p.2.shadows⟩ : Endpoint)) else p)).find?
        (fun p => p.1 = e)).map Prod.snd
      = ((eps.find? (fun p => p.1 = e)).map Prod.snd).map
          (fun ep => (⟨m, ep.shadows⟩ : Endpoint)) := by
  induction eps with
  | nil => rfl
  | cons q rest ih =>
    by_cases hq : q.1 = e
    · rw [List.map_cons, if_pos hq]
      rw [List.find?_cons_of_pos _ (by simp [hq]), List.find?_cons_of_pos _ (by simp [hq])]
      rfl
    · rw [List.map_cons, if_neg hq]
      rw [List.find?_cons_of_neg _ (by simp [hq]), List.find?_cons_of_neg _ (by simp [hq])]
      exact ih

theorem find?_set_traffic_ne (eps : List (String × Endpoint)) (e e' : String)
    (hne : e' ≠ e) (m : List (String × ℚ)) :
    (eps.map (fun p => if p.1 = e then (p.1, (⟨m, p.2.shadows⟩ : Endpoint)) else p)).find?
        (fun p => p.1 = e')
      = eps.find? (fun p => p.1 = e') := by
  induction eps with
  | nil => rfl
  | cons q rest ih =>
    by_cases hq : q.1 = e
    · have hq' : ¬q.1 = e' := by
        rw [hq]
        exact fun hh => hne hh.symm
      rw [List.map_cons, if_pos hq]
      rw [List.find?_cons_of_neg _ (by simp [hq']), List.find?_cons_of_neg _ (by simp [hq'])]
      exact ih
    · rw [List.map_cons, if_neg hq]
      by_cases hq' : q.1 = e'
      · rw [List.find?_cons_of_pos _ (by simp [hq']), List.find?_cons_of_pos _ (by simp [hq'])]
      · rw [List.find?_cons_of_neg _ (by simp [hq']), List.find?_cons_of_neg _ (by simp [hq'])]
        exact ih

theorem find?_withShadows_eq (eps : List (String × Endpoint)) (e : String)
    (sh : List (String × ℚ)) :
    ((eps.map (fun p => if p.1 = e then (p.1, (⟨p.2.traffic, sh⟩ : Endpoint)) else p)).find?
        (fun p => p.1 = e)).map Prod.snd
      = ((eps.find? (fun p => p.1 = e)).map Prod.snd).map
          (fun ep => (⟨ep.traffic, sh⟩ : Endpoint)) := by
  induction eps with
  | nil => rfl
  | cons q rest ih =>
    by_cases hq : q.1 = e
    · rw [List.map_cons, if_pos hq]
      rw [List.find?_cons_of_pos _ (by simp [hq]), List.find?_cons_of_pos _ (by simp [hq])]
      rfl
    · rw [List.map_cons, if_neg hq]
      rw [List.find?_cons_of_neg _ (by simp [hq]), List.find?_cons_of_neg _ (by simp [hq])]
      exact ih

/-- C5: for every backend `b` and every registry state, if any endpoint's
traffic or shadow map references `b` then `delete_backend b` fails with
`BackendInUse` (producing no successor state, so the registry is unchanged);
and once the referencing endpoint has been removed with `delete_endpoint` so
that no endpoint references `b`, the same `delete_backend b` call succeeds. -/
theorem delete_backend_referential_integrity (st : ServeState) (b : String) :
    ((∃ p ∈ st.endpoints, referencesBackend p.2 b) →
        st.delete_backend b = .error .BackendInUse) ∧
    (∀ e st', st.delete_endpoint e = .ok st' →
        (∀ p ∈ st'.endpoints, ¬referencesBackend p.2 b) →
        st'.backends.contains b = true →
        st'.delete_backend b
          = .ok ⟨st'.backends.filter (fun nm => nm ≠ b), st'.endpoints⟩) := by
  constructor
  · intro h
    obtain ⟨p, hp, href⟩ := h
    unfold ServeState.delete_backend
    rw [if_pos (List.any_eq_true.mpr ⟨p, hp, href⟩)]
  · intro e st' _ hnone hb
    unfold ServeState.delete_backend
    have hany : st'.endpoints.any (fun p => referencesBackend p.2 b) = false := by
      rw [List.any_eq_false]
      exact hnone
    rw [hany, if_neg Bool.false_ne_true, if_pos hb]

/-- Witness for C5: with backend "b" referenced by endpoint "e" the delete
fails; on the state left by `delete_endpoint "e"` it succeeds. -/
theorem delete_backend_referential_integrity_witness :
    ((⟨["b"], [("e", ⟨[("b", 1)], []⟩)]⟩ : ServeState).delete_backend "b"
        = .error .BackendInUse) ∧
    ((⟨["b"], []⟩ : ServeState).delete_backend "b"
        = .ok ⟨["b"].filter (fun nm => nm ≠ "b"), []⟩) :=
  ⟨(delete_backend_referential_integrity ⟨["b"], [("e", ⟨[("b", 1)], []⟩)]⟩ "b").1
      ⟨("e", ⟨[("b", 1)], []⟩), by decide, by decide⟩,
    (delete_backend_referential_integrity ⟨["b"], [("e", ⟨[("b", 1)], []⟩)]⟩ "b").2
      "e" ⟨["b"], []⟩ rfl (by decide) (by decide)⟩

/-- C6: `set_traffic` atomically replaces the endpoint's entire weight map —
afterwards the endpoint carries exactly the new map (shadows untouched) and
every other endpoint is unchanged; after `set_traffic e [(b, 1)]`, every
subsequently dispatched route on the new state selects backend `b` for every
sample point of `[0, 1)`; a route dispatched on the old state is resolved
entirely by the old map (no mixture of the two maps). -/
theorem set_traffic_atomic {Req Resp : Type} (st : ServeState) (e : String)
    (m : List (String × ℚ)) (st' : ServeState) (h : st.set_traffic e m = .ok st') :
    (∀ ep, st.findEndpoint e = some ep → st'.findEndpoint e = some ⟨m, ep.shadows⟩) ∧
    (∀ e', e' ≠ e → st'.findEndpoint e' = st.findEndpoint e') ∧
    (∀ b : String, m = [(b, 1)] →
      ∀ (exec shadowOutcome : String → Req → Except ServeError Resp) (req : Req)
        (u : ℚ) (s : String → ℚ → Bool), 0 ≤ u → u < 1 →
        (route st' exec shadowOutcome e req u s).1 = exec b req) ∧
    (∀ ep, st.findEndpoint e = some ep →
      ∀ (exec shadowOutcome : String → Req → Except ServeError Resp) (req : Req)
        (u : ℚ) (s : String → ℚ → Bool),
        (route st exec shadowOutcome e req u s).1
          = match selectBackend ep.traffic u with
            | none => Except.error ServeError.NotFound
            | some b => exec b req) := by
  obtain ⟨ep0, hf0, hst'⟩ : ∃ ep0, st.findEndpoint e = some ep0 ∧
      st' = ⟨st.backends,
        st.endpoints.map (fun p => if p.1 = e then (p.1, ⟨m, p.2.shadows⟩) else p)⟩ := by
    unfold ServeState.set_traffic at h
    cases hf : st.findEndpoint e with
    | none =>
      rw [hf] at h
      exact Except.noConfusion h
    | some ep0 =>
      rw [hf] at h
      dsimp only at h
      by_cases hw : validWeights st m = true
      · rw [if_pos hw] at h
        exact ⟨ep0, rfl, (Except.ok.inj h).symm⟩
      · rw [if_neg hw] at h
        exact Except.noConfusion h
  have hfind1 : ∀ ep, st.findEndpoint e = some ep →
      st'.findEndpoint e = some ⟨m, ep.shadows⟩ := by
    intro ep hfe
    have hcalc : st'.findEndpoint e
        = (st.findEndpoint e).map (fun ep => (⟨m, ep.shadows⟩ : Endpoint)) := by
      rw [hst']
      exact find?_set_traffic_eq st.endpoints e m
    rw [hcalc, hfe]
    rfl
  refine ⟨hfind1, ?_, ?_, ?_⟩
  · intro e' hne
    rw [hst']
    show ((st.endpoints.map _).find? _).map Prod.snd = st.findEndpoint e'
    rw [find?_set_traffic_ne st.endpoints e e' hne m]
    rfl
  · intro b hm exec shadowOutcome req u s hu0 hu1
    have hfind' := hfind1 ep0 hf0
    subst hm
    simp [route, hfind', selectBackend, hu1]
  · intro ep hfe exec shadowOutcome req u s
    simp [route, hfe]

/-- Witness for C6: after replacing endpoint "e"'s map with `[("b", 1)]`, a
route at sample point `1/2` selects backend "b". -/
theorem set_traffic_atomic_witness :
    ((⟨["a", "b"], [("e", ⟨[("a", 3/4), ("b", 1/4)], []⟩)]⟩ : ServeState).set_traffic "e"
        [("b", 1)] = .ok (⟨["a", "b"], [("e", ⟨[("b", 1)], []⟩)]⟩ : ServeState)) ∧
    (route (⟨["a", "b"], [("e", ⟨[("b", 1)], []⟩)]⟩ : ServeState)
        (fun nm (_ : Unit) => (Except.ok nm : Except ServeError String))
        (fun nm _ => Except.ok nm) "e" () (1/2) (fun _ _ => true)).1
      = (fun nm (_ : Unit) => (Except.ok nm : Except ServeError String)) "b" () :=
  by
  have h : (⟨["a", "b"], [("e", ⟨[("a", 3/4), ("b", 1/4)], []⟩)]⟩ : ServeState).set_traffic
      "e" [("b", 1)] = .ok (⟨["a", "b"], [("e", ⟨[("b", 1)], []⟩)]⟩ : ServeState) := by
    have hval : validWeights
        (⟨["a", "b"], [("e", ⟨[("a", 3/4), ("b", 1/4)], []⟩)]⟩ : ServeState)
        [("b", 1)] = true := by
      unfold validWeights
      rw [show ([(("b" : String), (1 : ℚ))].map Prod.snd).sum = 1 by simp]
      decide
    unfold ServeState.set_traffic
    rw [show (⟨["a", "b"], [("e", ⟨[("a", 3/4), ("b", 1/4)], []⟩)]⟩
        : ServeState).findEndpoint "e" = some ⟨[("a", 3/4), ("b", 1/4)], []⟩ from rfl]
    dsimp only
    rw [if_pos hval]
    rfl
  exact ⟨h,
    (@set_traffic_atomic Unit String ⟨["a", "b"], [("e", ⟨[("a", 3/4), ("b", 1/4)], []⟩)]⟩
        "e" [("b", 1)] ⟨["a", "b"], [("e", ⟨[("b", 1)], []⟩)]⟩ h).2.2.1
      "b" rfl (fun nm _ => Except.ok nm) (fun nm _ => Except.ok nm) () (1/2)
      (fun _ _ => true) (by norm_num) (by norm_num)⟩

/-- C7: the response returned to the caller of `route` is identical whether
or not shadow backends are configured and regardless of the outcome (value or
error) of any shadow dispatch: the caller-visible component depends only on
the endpoint's traffic map and the primary dispatch, and shadow outcomes land
only in the discarded fire-and-forget log. -/
theorem route_shadow_isolation {Req Resp : Type} (st : ServeState)
    (exec shadowOutcome shadowOutcome' : String → Req → Except ServeError Resp)
    (e : String) (req : Req) (u : ℚ) (s s' : String → ℚ → Bool)
    (sh : List (String × ℚ)) :
    (route (st.withShadows e sh) exec shadowOutcome' e req u s').1
      = (route st exec shadowOutcome e req u s).1 ∧
    (route st exec shadowOutcome e req u s).1
      = (match st.findEndpoint e with
          | none => Except.error ServeError.NotFound
          | some ep =>
            match selectBackend ep.traffic u with
            | none => Except.error ServeError.NotFound
            | some b => exec b req) := by
  have hfind : (st.withShadows e sh).findEndpoint e
      = (st.findEndpoint e).map (fun ep => (⟨ep.traffic, sh⟩ : Endpoint)) :=
    find?_withShadows_eq st.endpoints e sh
  constructor
  · cases hf : st.findEndpoint e with
    | none =>
      rw [hf] at hfind
      simp [route, hf, hfind]
    | some ep =>
      rw [hf] at hfind
      simp only [Option.map_some'] at hfind
      simp [route, hf, hfind]
  · cases hf : st.findEndpoint e with
    | none => simp [route, hf]
    | some ep => simp [route, hf]

end Academy
